import Mathlib

set_option maxRecDepth 100000

/- Shallow embedding of the netmask package (src/netmask/mask.go): a comparable
value type representing an IPv4 mask or an IPv6 prefix, with binary and text
codecs. Bytes are modelled as natural numbers below 256; the byte conversions of
Go (byte(x), uint8(x)) appear as % 256, and the uint32 mask field is kept below
2^32 by the constructors. Fallible operations return the new mask together with
an Option String error; the unmarshal functions additionally take the previous
value of their pointer receiver, so that the error paths (which in Go return
without assigning) can be stated faithfully. -/

/-- Sentinel values of the z field (mask.go lines 39-44): z0 marks the invalid
zero Mask, z4 an IPv4 mask, z6 an IPv6 prefix. -/
def z0 : Nat := 0

/-- Sentinel for an IPv4 mask. -/
def z4 : Nat := 1

/-- Sentinel for an IPv6 prefix. -/
def z6 : Nat := 2

/-- Mask (mask.go lines 27-37): a 32-bit mask payload and an address-family tag. -/
structure Mask where
  mask : Nat
  z : Nat
deriving DecidableEq

/-- Inner loop of prefixLength (mask.go lines 92-95): count the leading one bits
of a byte by left-shifting and testing the high bit, returning the count and the
final shifted byte. The fuel 8 bounds the loop by the byte width: a byte shifted
left eight times is zero. -/
def countLeadingOnes : Nat → Nat → Nat × Nat
  | 0, v => (0, v)
  | fuel + 1, v =>
    if v &&& 0x80 ≠ 0 then
      ((countLeadingOnes fuel ((v <<< 1) % 256)).1 + 1,
        (countLeadingOnes fuel ((v <<< 1) % 256)).2)
    else (0, v)

/-- Loop of prefixLength (mask.go lines 87-105) with the running count n: each
0xFF byte adds 8; on the first other byte its leading ones are counted, the rest
of that byte must be zero, and every remaining byte must be zero. -/
def prefixLengthGo : List Nat → Nat → Int
  | [], n => (n : Int)
  | v :: rest, n =>
    if v = 0xFF then prefixLengthGo rest (n + 8)
    else if (countLeadingOnes 8 v).2 ≠ 0 then -1
    else if rest.any (fun b => b != 0) then -1
    else ((n + (countLeadingOnes 8 v).1 : Nat) : Int)

/-- prefixLength (mask.go lines 85-107): the number of leading one bits in mask,
or -1 if the ones are not followed entirely by zero bits. -/
def prefixLength (mask : List Nat) : Int := prefixLengthGo mask 0

/-- MaskFrom4 (mask.go lines 47-52): the IPv4 mask given by four bytes, packed
big-endian into the 32-bit mask field. The % 256 renders the byte type of the
input array. -/
def MaskFrom4 (b0 b1 b2 b3 : Nat) : Mask :=
  ⟨(b0 % 256) <<< 24 ||| (b1 % 256) <<< 16 ||| (b2 % 256) <<< 8 ||| (b3 % 256), z4⟩

/-- MaskFrom16 (mask.go lines 57-67): the IPv6 prefix given by sixteen bytes; if
the bytes are not one bits followed by all zero bits, the invalid Mask. -/
def MaskFrom16 (mask : List Nat) : Mask :=
  if prefixLength mask = -1 then ⟨0, z0⟩
  else ⟨(prefixLength mask).toNat, z6⟩

/-- MaskFromSlice (mask.go lines 72-81): dispatch on the slice length to the
4-byte or 16-byte constructor; any other length gives the zero Mask and false. -/
def MaskFromSlice (mask : List Nat) : Mask × Bool :=
  if mask.length = 4 then
    (MaskFrom4 (mask.getD 0 0) (mask.getD 1 0) (mask.getD 2 0) (mask.getD 3 0), true)
  else if mask.length = 16 then (MaskFrom16 mask, true)
  else (⟨0, z0⟩, false)

/-- Byte-synthesis loop shared by the IPv6 arm of AsSlice (mask.go lines 119-129)
and the 32-bit arm of MaskFrom (mask.go lines 143-153): k bytes, each 0xFF while
at least 8 bits remain, then the partial byte complement-of(0xFF >> n), then
zeros. -/
def maskBytes : Nat → Nat → List Nat
  | 0, _ => []
  | k + 1, n =>
    if 8 ≤ n then 0xFF :: maskBytes k (n - 8)
    else (0xFF ^^^ (0xFF >>> n)) :: maskBytes k 0

/-- AsSlice (mask.go lines 110-132): nil for the zero Mask, the 4 big-endian
bytes for IPv4, the 16 synthesized prefix bytes for IPv6. -/
def Mask.AsSlice (m : Mask) : List Nat :=
  if m.z = z0 then []
  else if m.z = z4 then
    [(m.mask >>> 24) % 256, (m.mask >>> 16) % 256, (m.mask >>> 8) % 256, m.mask % 256]
  else maskBytes 16 m.mask

/-- MaskFrom (mask.go lines 136-163): ones leading 1 bits followed by 0s up to
bits total bits; invalid for ones outside [0, bits] or bits outside {32, 128}. -/
def MaskFrom (ones bits : Int) : Mask :=
  if ones < 0 ∨ ones > bits then ⟨0, z0⟩
  else if bits = 32 then
    MaskFrom4 ((maskBytes 4 ones.toNat).getD 0 0) ((maskBytes 4 ones.toNat).getD 1 0)
      ((maskBytes 4 ones.toNat).getD 2 0) ((maskBytes 4 ones.toNat).getD 3 0)
  else if bits = 128 then ⟨ones.toNat, z6⟩
  else ⟨0, z0⟩

/-- IsValid (mask.go lines 168-170). -/
def Mask.IsValid (m : Mask) : Bool := m.z != z0

/-- Is4 (mask.go lines 173-175). -/
def Mask.Is4 (m : Mask) : Bool := m.z == z4

/-- Is6 (mask.go lines 178-180). -/
def Mask.Is6 (m : Mask) : Bool := m.z == z6

/-- Bits (mask.go lines 185-195): -1 for the zero Mask, the re-derived prefix
length of the byte form for IPv4, the stored prefix length for IPv6. -/
def Mask.Bits (m : Mask) : Int :=
  if m.z = z0 then -1
  else if m.z = z4 then prefixLength m.AsSlice
  else (m.mask : Int)

/-- AppendBinary (mask.go lines 198-212): nothing for the zero Mask, the four
big-endian bytes for IPv4, the single prefix-length byte for IPv6. -/
def Mask.AppendBinary (m : Mask) (b : List Nat) : List Nat :=
  if m.z = z0 then b
  else if m.z = z4 then
    b ++ [(m.mask >>> 24) % 256, (m.mask >>> 16) &&& 0xFF, (m.mask >>> 8) &&& 0xFF,
      m.mask &&& 0xFF]
  else b ++ [m.mask % 256]

/-- MarshalBinary (mask.go lines 217-219). -/
def Mask.MarshalBinary (m : Mask) : List Nat := m.AppendBinary []

/-- Error returned for a binary or text input of unexpected length
(mask.go lines 248 and 314). -/
def errUnexpectedSize : String := "unexpected slice size"

/-- Error returned when splitting dotted-decimal text does not give four fields
(mask.go line 299). -/
def errUnexpectedType : String := "unexpected slice type"

/-- Error standing for a strconv.ParseUint failure (bad digit or range). -/
def errParseFail : String := "parse failure"

/-- UnmarshalBinary (mask.go lines 234-249): dispatch on the input length; the
first argument is the previous value of the pointer receiver, returned unchanged
on the error path. -/
def Mask.UnmarshalBinary (old : Mask) (b : List Nat) : Mask × Option String :=
  if b.length = 0 then (⟨0, z0⟩, none)
  else if b.length = 4 then
    (MaskFrom4 (b.getD 0 0) (b.getD 1 0) (b.getD 2 0) (b.getD 3 0), none)
  else if b.length = 1 then (MaskFrom ((b.getD 0 0 : Nat) : Int) 128, none)
  else (old, some errUnexpectedSize)

/-- Decimal digit characters of n, most significant first; the fuel makes the
division loop structural. Models the digit emission of strconv.AppendUint. -/
def toDecAux : Nat → Nat → List Char
  | 0, _ => []
  | fuel + 1, n =>
    if n < 10 then [Char.ofNat (48 + n)]
    else toDecAux fuel (n / 10) ++ [Char.ofNat (48 + n % 10)]

/-- Decimal representation of n, modelling strconv.AppendUint(b, n, 10) and
strconv.FormatUint(n, 10). -/
def toDec (n : Nat) : List Char := toDecAux (n + 1) n

/-- appendTextIPv4 (mask.go lines 338-347): the four bytes of the mask rendered
as dotted decimal. -/
def appendTextIPv4 (m : Mask) (b : List Char) : List Char :=
  b ++ toDec ((m.mask >>> 24) % 256) ++ ['.'] ++ toDec ((m.mask >>> 16) % 256)
    ++ ['.'] ++ toDec ((m.mask >>> 8) % 256) ++ ['.'] ++ toDec (m.mask % 256)

/-- AppendText (mask.go lines 252-261). -/
def Mask.AppendText (m : Mask) (b : List Char) : List Char :=
  if m.z = z0 then b
  else if m.z = z4 then appendTextIPv4 m b
  else b ++ toDec m.mask

/-- MarshalText (mask.go lines 266-268). -/
def Mask.MarshalText (m : Mask) : List Char := m.AppendText []

/-- Decimal digit test on the character code, as strconv does byte-wise. -/
def isDigit (c : Char) : Bool := 48 ≤ c.toNat && c.toNat ≤ 57

/-- Value of a decimal digit character. -/
def digitVal (c : Char) : Nat := c.toNat - 48

/-- Accumulated decimal value of a digit string. -/
def digitsVal (s : List Char) : Nat := s.foldl (fun a c => a * 10 + digitVal c) 0

/-- Models strconv.ParseUint(s, 10, bitSize): the string must be nonempty and
all decimal digits, and the value must fit in bitSize bits; otherwise an error
(none). -/
def parseUint (s : List Char) (bitSize : Nat) : Option Nat :=
  if s.isEmpty then none
  else if s.all isDigit then
    if digitsVal s < 2 ^ bitSize then some (digitsVal s) else none
  else none

/-- Split a character list at the first occurrence of sep, if any. -/
def breakAtSep (sep : Char) : List Char → List Char × Option (List Char)
  | [] => ([], none)
  | c :: rest =>
    if c = sep then ([], some rest)
    else ((c :: (breakAtSep sep rest).1), (breakAtSep sep rest).2)

/-- Models strings.SplitN(s, sep, n) for a one-character separator: at most n
substrings, the last one holding the unsplit remainder. -/
def splitN (sep : Char) : Nat → List Char → List (List Char)
  | 0, _ => []
  | 1, s => [s]
  | n + 2, s =>
    match breakAtSep sep s with
    | (pre, none) => [pre]
    | (pre, some rest) => pre :: splitN sep (n + 1) rest

/-- Parse the dotted-decimal fields (mask.go lines 302-309), each as an 8-bit
unsigned decimal; any failure is an error for the whole list. -/
def parseFields : List (List Char) → Option (List Nat)
  | [] => some []
  | s :: rest =>
    match parseUint s 8, parseFields rest with
    | some f, some fs => some (f :: fs)
    | _, _ => none

/-- UnmarshalText (mask.go lines 283-315): empty text gives the zero Mask, 1-3
characters parse as an IPv6 prefix length, 7-15 characters parse as dotted
decimal IPv4; anything else is an error. The first argument is the previous
value of the pointer receiver, returned unchanged on the error paths. -/
def Mask.UnmarshalText (old : Mask) (text : List Char) : Mask × Option String :=
  if text.length = 0 then (⟨0, z0⟩, none)
  else if 1 ≤ text.length ∧ text.length ≤ 3 then
    match parseUint text 64 with
    | none => (old, some errParseFail)
    | some u => (MaskFrom ((u : Nat) : Int) 128, none)
  else if 7 ≤ text.length ∧ text.length ≤ 15 then
    if (splitN '.' 4 text).length ≠ 4 then (old, some errUnexpectedType)
    else
      match parseFields (splitN '.' 4 text) with
      | none => (old, some errParseFail)
      | some fields =>
        (⟨(fields.getD 0 0) <<< 24 ||| (fields.getD 1 0) <<< 16
            ||| (fields.getD 2 0) <<< 8 ||| fields.getD 3 0, z4⟩, none)
  else (old, some errUnexpectedSize)

/-- Equal (mask.go lines 334-336): the Go struct comparison x == y, which is
field-wise equality. -/
def Mask.Equal (x y : Mask) : Bool := x.mask == y.mask && x.z == y.z

/-- Bit j of a byte, in big-endian bit order: bit 0 is the most significant. -/
def byteBit (b j : Nat) : Bool := (b >>> (7 - j)) &&& 1 == 1

/-- Bit j of a byte slice, in big-endian bit and byte order. -/
def sliceBit (bs : List Nat) (j : Nat) : Bool := byteBit (bs.getD (j / 8) 0) (j % 8)

/-- The byte slice consists of exactly n leading one bits followed only by zero
bits. -/
def IsOnesRun (bs : List Nat) (n : Nat) : Prop :=
  n ≤ 8 * bs.length ∧ ∀ j, j < 8 * bs.length → (sliceBit bs j = true ↔ j < n)

instance instDecidableIsOnesRun (bs : List Nat) (n : Nat) : Decidable (IsOnesRun bs n) := by
  unfold IsOnesRun
  infer_instance

/-- The canonical byte pattern of n leading ones: a full byte is 255, the byte
at the transition is onesByte of the leftover count, the rest are zero. -/
def onesByte (c : Nat) : Nat := 256 - 2 ^ (8 - c)

/-- Byte-level recursive form of the n-leading-ones pattern, mirroring the scan
of prefixLength. -/
def isPrefixBytes : List Nat → Nat → Prop
  | [], n => n = 0
  | b :: rest, n =>
    if 8 ≤ n then b = 255 ∧ isPrefixBytes rest (n - 8)
    else b = onesByte n ∧ isPrefixBytes rest 0

/-- Masks obtainable through the public constructors: the zero Mask, MaskFrom4,
MaskFrom16 on a 16-byte slice, MaskFromSlice on a byte slice, and MaskFrom. -/
inductive Constructible : Mask → Prop
  | zero : Constructible ⟨0, z0⟩
  | from4 (b0 b1 b2 b3 : Nat) : Constructible (MaskFrom4 b0 b1 b2 b3)
  | from16 (bs : List Nat) (hlen : bs.length = 16) (hb : ∀ x ∈ bs, x < 256) :
      Constructible (MaskFrom16 bs)
  | fromSlice (bs : List Nat) (hb : ∀ x ∈ bs, x < 256) :
      Constructible (MaskFromSlice bs).1
  | fromOnes (ones bits : Int) : Constructible (MaskFrom ones bits)

theorem clo_le (v : Nat) (hv : v < 256) :
    (countLeadingOnes 8 v).1 ≤ 8 := by revert v hv; decide

theorem clo_lt_of_ne (v : Nat) (hv : v < 256) (h255 : v ≠ 255) :
    (countLeadingOnes 8 v).1 < 8 := by revert v hv h255; decide

theorem clo_onesByte_of_snd_eq_zero (v : Nat) (hv : v < 256)
    (h : (countLeadingOnes 8 v).2 = 0) : v = onesByte (countLeadingOnes 8 v).1 := by
  revert v hv h; decide

theorem clo_of_onesByte (c : Nat) (hc : c < 9) : countLeadingOnes 8 (onesByte c) = (c, 0) := by
  revert c hc; decide

theorem onesByte_ne_255 (c : Nat) (hc : c < 8) : onesByte c ≠ 255 := by
  revert c hc; decide

theorem isPrefixBytes_zero_iff (bs : List Nat) :
    isPrefixBytes bs 0 ↔ bs.any (fun b => b != 0) = false := by
  induction bs with
  | nil => simp [isPrefixBytes]
  | cons b rest ih =>
    simp only [isPrefixBytes, List.any_cons]
    rw [if_neg (by omega)]
    simp [onesByte, ih]

theorem prefixLengthGo_spec (bs : List Nat) (hb : ∀ x ∈ bs, x < 256) : ∀ n : Nat,
    (∀ c : Nat, prefixLengthGo bs n = ((n + c : Nat) : Int) → isPrefixBytes bs c) ∧
    (∀ c : Nat, isPrefixBytes bs c → prefixLengthGo bs n = ((n + c : Nat) : Int)) ∧
    (prefixLengthGo bs n = -1 ∨ ∃ c : Nat, prefixLengthGo bs n = ((n + c : Nat) : Int)) := by
  induction bs with
  | nil =>
    intro n
    refine ⟨?_, ?_, Or.inr ⟨0, by simp [prefixLengthGo]⟩⟩
    · intro c hc
      simp only [prefixLengthGo] at hc
      have hcz : c = 0 := by omega
      simp [hcz, isPrefixBytes]
    · intro c hc
      simp only [isPrefixBytes] at hc
      simp [prefixLengthGo, hc]
  | cons v rest ih =>
    intro n
    have hv : v < 256 := hb v (List.mem_cons_self v rest)
    have hrest : ∀ x ∈ rest, x < 256 := fun x hx => hb x (List.mem_cons_of_mem v hx)
    have ihr := ih hrest
    by_cases hv255 : v = 255
    · subst hv255
      have hgo : prefixLengthGo (255 :: rest) n = prefixLengthGo rest (n + 8) := by
        simp [prefixLengthGo]
      obtain ⟨d1, d2, d3⟩ := ihr (n + 8)
      refine ⟨?_, ?_, ?_⟩
      · intro c hc
        rw [hgo] at hc
        rcases d3 with hneg | ⟨c2, hc2⟩
        · rw [hneg] at hc; omega
        · have hcc : c = 8 + c2 := by rw [hc2] at hc; omega
          subst hcc
          simp only [isPrefixBytes]
          rw [if_pos (by omega)]
          refine ⟨by trivial, ?_⟩
          have : 8 + c2 - 8 = c2 := by omega
          rw [this]
          exact d1 c2 hc2
      · intro c hc
        simp only [isPrefixBytes] at hc
        by_cases h8 : 8 ≤ c
        · rw [if_pos h8] at hc
          rw [hgo, d2 (c - 8) hc.2]
          congr 1
          omega
        · rw [if_neg h8] at hc
          exact absurd hc.1.symm (onesByte_ne_255 c (by omega))
      · rw [hgo]
        rcases d3 with hneg | ⟨c2, hc2⟩
        · exact Or.inl hneg
        · refine Or.inr ⟨8 + c2, ?_⟩
          rw [hc2]
          congr 1
          omega
    · by_cases h2 : (countLeadingOnes 8 v).2 = 0
      · by_cases h3 : rest.any (fun b => b != 0) = true
        · have hgo : prefixLengthGo (v :: rest) n = -1 := by
            simp [prefixLengthGo, hv255, h2, h3]
          refine ⟨?_, ?_, Or.inl hgo⟩
          · intro c hc; rw [hgo] at hc; omega
          · intro c hc
            simp only [isPrefixBytes] at hc
            by_cases h8 : 8 ≤ c
            · rw [if_pos h8] at hc; exact absurd hc.1 hv255
            · rw [if_neg h8] at hc
              have hz := (isPrefixBytes_zero_iff rest).mp hc.2
              rw [hz] at h3; exact absurd h3 (by simp)
        · have h3f : rest.any (fun b => b != 0) = false := by
            revert h3; cases rest.any (fun b => b != 0) <;> simp
          have hgo : prefixLengthGo (v :: rest) n
              = ((n + (countLeadingOnes 8 v).1 : Nat) : Int) := by
            simp [prefixLengthGo, hv255, h2, h3f]
          refine ⟨?_, ?_, Or.inr ⟨(countLeadingOnes 8 v).1, hgo⟩⟩
          · intro c hc
            rw [hgo] at hc
            have hcc : c = (countLeadingOnes 8 v).1 := by omega
            subst hcc
            simp only [isPrefixBytes]
            rw [if_neg (Nat.not_le.mpr (clo_lt_of_ne v hv hv255))]
            exact ⟨clo_onesByte_of_snd_eq_zero v hv h2, (isPrefixBytes_zero_iff rest).mpr h3f⟩
          · intro c hc
            simp only [isPrefixBytes] at hc
            by_cases h8 : 8 ≤ c
            · rw [if_pos h8] at hc; exact absurd hc.1 hv255
            · rw [if_neg h8] at hc
              have hclo : countLeadingOnes 8 v = (c, 0) := by
                rw [hc.1]; exact clo_of_onesByte c (by omega)
              rw [hgo, hclo]
      · have hgo : prefixLengthGo (v :: rest) n = -1 := by
          simp [prefixLengthGo, hv255, h2]
        refine ⟨?_, ?_, Or.inl hgo⟩
        · intro c hc; rw [hgo] at hc; omega
        · intro c hc
          simp only [isPrefixBytes] at hc
          by_cases h8 : 8 ≤ c
          · rw [if_pos h8] at hc; exact absurd hc.1 hv255
          · rw [if_neg h8] at hc
            have hclo : countLeadingOnes 8 v = (c, 0) := by
              rw [hc.1]; exact clo_of_onesByte c (by omega)
            rw [hclo] at h2
            exact absurd rfl h2

theorem byteBit_255 (j : Nat) (hj : j < 8) : byteBit 255 j = true := by
  revert j hj; decide

theorem eq_255_of_byteBit (b : Nat) (hb : b < 256)
    (h : ∀ j, j < 8 → byteBit b j = true) : b = 255 := by
  revert b hb; decide

theorem byteBit_onesByte_iff (b : Nat) (hb : b < 256) (c : Nat) (hc : c < 8) :
    (∀ j, j < 8 → (byteBit b j = true ↔ j < c)) ↔ b = onesByte c := by
  revert b hb c hc; decide

theorem sliceBit_cons_lt (b : Nat) (rest : List Nat) (j : Nat) (h : j < 8) :
    sliceBit (b :: rest) j = byteBit b j := by
  unfold sliceBit
  rw [Nat.div_eq_of_lt h, Nat.mod_eq_of_lt h]
  rfl

theorem sliceBit_cons_ge (b : Nat) (rest : List Nat) (j : Nat) (h : 8 ≤ j) :
    sliceBit (b :: rest) j = sliceBit rest (j - 8) := by
  unfold sliceBit
  have h1 : j / 8 = (j - 8) / 8 + 1 := by omega
  have h2 : j % 8 = (j - 8) % 8 := by omega
  rw [h1, h2]
  rfl

theorem isPrefixBytes_iff_isOnesRun (bs : List Nat) (hb : ∀ x ∈ bs, x < 256) (n : Nat) :
    isPrefixBytes bs n ↔ IsOnesRun bs n := by
  induction bs generalizing n with
  | nil =>
    simp only [isPrefixBytes, IsOnesRun, List.length_nil]
    constructor
    · intro h
      subst h
      refine ⟨by omega, fun j hj => absurd hj (by omega)⟩
    · intro h
      omega
  | cons b rest ih =>
    have hbb : b < 256 := hb b (List.mem_cons_self b rest)
    have hbr : ∀ x ∈ rest, x < 256 := fun x hx => hb x (List.mem_cons_of_mem b hx)
    have ihr := fun m => ih hbr m
    simp only [IsOnesRun] at ihr ⊢
    simp only [List.length_cons]
    by_cases h8 : 8 ≤ n
    · simp only [isPrefixBytes]
      rw [if_pos h8, ihr (n - 8)]
      constructor
      · rintro ⟨h255, hlen', hbits⟩
        refine ⟨by omega, ?_⟩
        intro j hj
        by_cases hj8 : j < 8
        · rw [sliceBit_cons_lt _ _ _ hj8, h255, byteBit_255 j hj8]
          constructor
          · intro _; omega
          · intro _; rfl
        · rw [sliceBit_cons_ge _ _ _ (by omega)]
          rw [hbits (j - 8) (by omega)]
          omega
      · rintro ⟨hlen', hbits⟩
        refine ⟨?_, by omega, ?_⟩
        · apply eq_255_of_byteBit b hbb
          intro j hj
          have hj' := (hbits j (by omega)).mpr (by omega)
          rwa [sliceBit_cons_lt _ _ _ hj] at hj'
        · intro j hj
          have hjj := hbits (j + 8) (by omega)
          rw [sliceBit_cons_ge _ _ _ (by omega)] at hjj
          have he : j + 8 - 8 = j := by omega
          rw [he] at hjj
          rw [hjj]
          omega
    · simp only [isPrefixBytes]
      rw [if_neg h8, ihr 0]
      constructor
      · rintro ⟨hob, hlen', hbits⟩
        refine ⟨by omega, ?_⟩
        intro j hj
        by_cases hj8 : j < 8
        · rw [sliceBit_cons_lt _ _ _ hj8]
          exact (byteBit_onesByte_iff b hbb n (by omega)).mpr hob j hj8
        · rw [sliceBit_cons_ge _ _ _ (by omega)]
          rw [hbits (j - 8) (by omega)]
          omega
      · rintro ⟨hlen', hbits⟩
        refine ⟨?_, by omega, ?_⟩
        · apply (byteBit_onesByte_iff b hbb n (by omega)).mp
          intro j hj
          have hjj := hbits j (by omega)
          rwa [sliceBit_cons_lt _ _ _ hj] at hjj
        · intro j hj
          have hjj := hbits (j + 8) (by omega)
          rw [sliceBit_cons_ge _ _ _ (by omega)] at hjj
          have he : j + 8 - 8 = j := by omega
          rw [he] at hjj
          rw [hjj]
          omega

theorem prefixLength_eq_iff (bs : List Nat) (hb : ∀ x ∈ bs, x < 256) (N : Nat) :
    prefixLength bs = (N : Int) ↔ IsOnesRun bs N := by
  obtain ⟨d1, d2, d3⟩ := prefixLengthGo_spec bs hb 0
  unfold prefixLength
  constructor
  · intro h
    refine (isPrefixBytes_iff_isOnesRun bs hb N).mp (d1 N ?_)
    rw [h]
    simp
  · intro h
    have := d2 N ((isPrefixBytes_iff_isOnesRun bs hb N).mpr h)
    rw [this]
    simp

theorem prefixLength_neg_iff (bs : List Nat) (hb : ∀ x ∈ bs, x < 256) :
    prefixLength bs = -1 ↔ ¬ ∃ N : Nat, IsOnesRun bs N := by
  constructor
  · intro h hex
    obtain ⟨N, hN⟩ := hex
    have := (prefixLength_eq_iff bs hb N).mpr hN
    rw [h] at this
    omega
  · intro hne
    obtain ⟨d1, d2, d3⟩ := prefixLengthGo_spec bs hb 0
    unfold prefixLength
    rcases d3 with h1 | ⟨c, hc⟩
    · exact h1
    · exfalso
      apply hne
      refine ⟨c, (isPrefixBytes_iff_isOnesRun bs hb c).mp (d1 c hc)⟩

theorem prefixLength_nonneg_bound (bs : List Nat) (hb : ∀ x ∈ bs, x < 256)
    (h : prefixLength bs ≠ -1) :
    ∃ N : Nat, prefixLength bs = (N : Int) ∧ N ≤ 8 * bs.length := by
  obtain ⟨d1, d2, d3⟩ := prefixLengthGo_spec bs hb 0
  unfold prefixLength at *
  rcases d3 with h1 | ⟨c, hc⟩
  · exact absurd h1 h
  · refine ⟨c, by rw [hc]; simp, ?_⟩
    have := (isPrefixBytes_iff_isOnesRun bs hb c).mp (d1 c hc)
    exact this.1

theorem or_two_pow_add (i a b : Nat) (h : b < 2 ^ i) : 2 ^ i * a ||| b = 2 ^ i * a + b :=
  (Nat.mul_add_lt_is_or h a).symm

theorem pack4_eq (a b c d : Nat) (hb : b < 256) (hc : c < 256) (hd : d < 256) :
    a <<< 24 ||| b <<< 16 ||| c <<< 8 ||| d = a * 16777216 + b * 65536 + c * 256 + d := by
  have s24 : a <<< 24 = a * 16777216 := by rw [Nat.shiftLeft_eq]
  have s16 : b <<< 16 = b * 65536 := by rw [Nat.shiftLeft_eq]
  have s8 : c <<< 8 = c * 256 := by rw [Nat.shiftLeft_eq]
  rw [s24, s16, s8]
  have h1 : a * 16777216 ||| b * 65536 = a * 16777216 + b * 65536 := by
    have e : a * 16777216 = 2 ^ 24 * a := by ring
    rw [e, or_two_pow_add 24 a (b * 65536) (by omega)]
  have h2 : a * 16777216 + b * 65536 ||| c * 256 = a * 16777216 + b * 65536 + c * 256 := by
    have e : a * 16777216 + b * 65536 = 2 ^ 16 * (256 * a + b) := by ring
    rw [e, or_two_pow_add 16 (256 * a + b) (c * 256) (by omega)]
  have h3 : a * 16777216 + b * 65536 + c * 256 ||| d
      = a * 16777216 + b * 65536 + c * 256 + d := by
    have e : a * 16777216 + b * 65536 + c * 256 = 2 ^ 8 * (65536 * a + 256 * b + c) := by ring
    rw [e, or_two_pow_add 8 (65536 * a + 256 * b + c) d (by omega)]
  rw [h1, h2, h3]

theorem and255_eq_mod (x : Nat) : x &&& 255 = x % 256 := by
  have h := Nat.and_pow_two_sub_one_eq_mod x 8
  norm_num at h
  exact h

theorem unpack_pack (x : Nat) (hx : x < 4294967296) :
    x >>> 24 % 256 * 16777216 + x >>> 16 % 256 * 65536 + x >>> 8 % 256 * 256 + x % 256 = x := by
  rw [Nat.shiftRight_eq_div_pow, Nat.shiftRight_eq_div_pow, Nat.shiftRight_eq_div_pow]
  omega

theorem MaskFrom4_mask (b0 b1 b2 b3 : Nat) :
    MaskFrom4 b0 b1 b2 b3
      = ⟨b0 % 256 * 16777216 + b1 % 256 * 65536 + b2 % 256 * 256 + b3 % 256, z4⟩ := by
  unfold MaskFrom4
  rw [pack4_eq (b0 % 256) (b1 % 256) (b2 % 256) (b3 % 256)
    (Nat.mod_lt _ (by norm_num)) (Nat.mod_lt _ (by norm_num)) (Nat.mod_lt _ (by norm_num))]

theorem AsSlice_MaskFrom4 (b0 b1 b2 b3 : Nat) :
    (MaskFrom4 b0 b1 b2 b3).AsSlice = [b0 % 256, b1 % 256, b2 % 256, b3 % 256] := by
  rw [MaskFrom4_mask]
  simp only [Mask.AsSlice, z0, z4, z6, List.cons.injEq]
  norm_num
  rw [Nat.shiftRight_eq_div_pow, Nat.shiftRight_eq_div_pow, Nat.shiftRight_eq_div_pow]
  refine ⟨by omega, by omega, by omega, by omega⟩

theorem MaskFrom4_inv (b0 b1 b2 b3 : Nat) :
    (MaskFrom4 b0 b1 b2 b3).z = z4 ∧ (MaskFrom4 b0 b1 b2 b3).mask < 4294967296 := by
  rw [MaskFrom4_mask]
  refine ⟨rfl, ?_⟩
  dsimp only
  omega

theorem MaskFrom16_cases (bs : List Nat) (hb : ∀ x ∈ bs, x < 256) :
    MaskFrom16 bs = ⟨0, z0⟩ ∨ ∃ N : Nat, MaskFrom16 bs = ⟨N, z6⟩ ∧ N ≤ 8 * bs.length := by
  unfold MaskFrom16
  by_cases h : prefixLength bs = -1
  · rw [if_pos h]; exact Or.inl rfl
  · rw [if_neg h]
    obtain ⟨N, hN, hNle⟩ := prefixLength_nonneg_bound bs hb h
    refine Or.inr ⟨N, ?_, hNle⟩
    rw [hN]
    simp

theorem constructible_inv (m : Mask) (h : Constructible m) :
    m = ⟨0, z0⟩ ∨ (m.z = z4 ∧ m.mask < 4294967296) ∨ (m.z = z6 ∧ m.mask ≤ 128) := by
  cases h with
  | zero => exact Or.inl rfl
  | from4 b0 b1 b2 b3 => exact Or.inr (Or.inl (MaskFrom4_inv b0 b1 b2 b3))
  | from16 bs hlen hb =>
    rcases MaskFrom16_cases bs hb with h | ⟨N, hN, hle⟩
    · rw [h]; exact Or.inl rfl
    · rw [hN]; right; right
      refine ⟨rfl, ?_⟩
      dsimp only
      rw [hlen] at hle
      omega
  | fromSlice bs hb =>
    unfold MaskFromSlice
    by_cases h4 : bs.length = 4
    · rw [if_pos h4]
      exact Or.inr (Or.inl (MaskFrom4_inv _ _ _ _))
    · rw [if_neg h4]
      by_cases h16 : bs.length = 16
      · rw [if_pos h16]
        dsimp only
        rcases MaskFrom16_cases bs hb with h | ⟨N, hN, hle⟩
        · rw [h]; exact Or.inl rfl
        · rw [hN]; right; right
          refine ⟨rfl, ?_⟩
          dsimp only
          rw [h16] at hle
          omega
      · rw [if_neg h16]
        exact Or.inl rfl
  | fromOnes ones bits =>
    unfold MaskFrom
    by_cases hneg : ones < 0 ∨ ones > bits
    · rw [if_pos hneg]; exact Or.inl rfl
    · rw [if_neg hneg]
      by_cases h32 : bits = 32
      · rw [if_pos h32]
        exact Or.inr (Or.inl (MaskFrom4_inv _ _ _ _))
      · rw [if_neg h32]
        by_cases h128 : bits = 128
        · rw [if_pos h128]
          right; right
          refine ⟨rfl, ?_⟩
          dsimp only
          subst h128
          omega
        · rw [if_neg h128]
          exact Or.inl rfl

/-- C1: prefixLength applied to any byte slice returns N exactly when the slice
consists of N leading one bits followed only by zero bits, and returns -1
otherwise; consequently MaskFrom16 on a 16-byte input returns the invalid zero
Mask when the input is not such a pattern, and the IPv6 prefix Mask of length N
when it has N leading ones. -/
theorem C1_prefixLength_inference (bs : List Nat) (hb : ∀ x ∈ bs, x < 256) :
    (∀ N : Nat, prefixLength bs = (N : Int) ↔ IsOnesRun bs N) ∧
    (prefixLength bs = -1 ↔ ¬ ∃ N : Nat, IsOnesRun bs N) ∧
    (bs.length = 16 →
      ((¬ ∃ N : Nat, IsOnesRun bs N) → MaskFrom16 bs = ⟨0, z0⟩) ∧
      (∀ N : Nat, IsOnesRun bs N → MaskFrom16 bs = ⟨N, z6⟩)) := by
  refine ⟨fun N => prefixLength_eq_iff bs hb N, prefixLength_neg_iff bs hb,
    fun _ => ⟨?_, ?_⟩⟩
  · intro hne
    unfold MaskFrom16
    rw [if_pos ((prefixLength_neg_iff bs hb).mpr hne)]
  · intro N hN
    have he := (prefixLength_eq_iff bs hb N).mpr hN
    unfold MaskFrom16
    rw [if_neg (by rw [he]; omega), he]
    simp

/-- Witness for C1 at concrete byte slices. -/
theorem C1_witness :
    (prefixLength [255, 128, 0] = (9 : Int) ↔ IsOnesRun [255, 128, 0] 9) ∧
    MaskFrom16 [255, 255, 0, 0, 0, 0, 0, 0, 0, 0, 0, 0, 0, 0, 0, 0] = ⟨16, z6⟩ := by
  refine ⟨(C1_prefixLength_inference [255, 128, 0] (by decide)).1 9, ?_⟩
  exact ((C1_prefixLength_inference [255, 255, 0, 0, 0, 0, 0, 0, 0, 0, 0, 0, 0, 0, 0, 0]
    (by decide)).2.2 (by decide)).2 16 (by decide)

/-- C5: Bits returns -1 on the zero Mask; on an IPv6 Mask storing n it returns
n; on an IPv4 Mask it returns the prefix length re-derived from the stored
32-bit pattern, which is -1 exactly when the pattern is not a run of one bits
followed only by zero bits, for example the mask built from bytes 85 0 0 0. -/
theorem C5_Bits (b0 b1 b2 b3 : Nat) (h0 : b0 < 256) (h1 : b1 < 256) (h2 : b2 < 256)
    (h3 : b3 < 256) :
    Mask.Bits ⟨0, z0⟩ = -1 ∧
    (∀ n : Nat, Mask.Bits ⟨n, z6⟩ = (n : Int)) ∧
    Mask.Bits (MaskFrom4 b0 b1 b2 b3) = prefixLength [b0, b1, b2, b3] ∧
    (Mask.Bits (MaskFrom4 b0 b1 b2 b3) = -1 ↔ ¬ ∃ N : Nat, IsOnesRun [b0, b1, b2, b3] N) ∧
    Mask.Bits (MaskFrom4 85 0 0 0) = -1 := by
  have hlist : ∀ x ∈ [b0, b1, b2, b3], x < 256 := by
    intro x hx
    simp only [List.mem_cons, List.not_mem_nil, or_false] at hx
    rcases hx with rfl | rfl | rfl | rfl
    · exact h0
    · exact h1
    · exact h2
    · exact h3
  have hbits : Mask.Bits (MaskFrom4 b0 b1 b2 b3) = prefixLength [b0, b1, b2, b3] := by
    have hz := (MaskFrom4_inv b0 b1 b2 b3).1
    unfold Mask.Bits
    simp only [hz, z0, z4]
    norm_num
    rw [AsSlice_MaskFrom4, Nat.mod_eq_of_lt h0, Nat.mod_eq_of_lt h1, Nat.mod_eq_of_lt h2,
      Nat.mod_eq_of_lt h3]
  refine ⟨rfl, ?_, hbits, ?_, by decide⟩
  · intro n
    simp [Mask.Bits, z0, z4, z6]
  · rw [hbits]
    exact prefixLength_neg_iff [b0, b1, b2, b3] hlist

/-- Witness for C5 at concrete bytes. -/
theorem C5_witness :
    Mask.Bits (MaskFrom4 255 255 0 0) = prefixLength [255, 255, 0, 0] :=
  (C5_Bits 255 255 0 0 (by decide) (by decide) (by decide) (by decide)).2.2.1

/-- C2: for every Mask constructible through the public constructors,
unmarshalling the output of MarshalBinary yields the same Mask with no error;
the encoding is empty for the zero Mask, the 4 big-endian mask bytes for IPv4,
and the single prefix-length byte for IPv6. -/
theorem C2_binary_roundtrip (m : Mask) (h : Constructible m) (old : Mask) :
    Mask.UnmarshalBinary old m.MarshalBinary = (m, none) ∧
    m.MarshalBinary.length = (if m.z = z0 then 0 else if m.z = z4 then 4 else 1) ∧
    (m.z = z4 → m.MarshalBinary
      = [m.mask >>> 24 % 256, m.mask >>> 16 % 256, m.mask >>> 8 % 256, m.mask % 256]) ∧
    (m.z = z6 → m.MarshalBinary = [m.mask]) := by
  obtain ⟨x, z⟩ := m
  rcases constructible_inv ⟨x, z⟩ h with h0 | ⟨hz, hm⟩ | ⟨hz, hm⟩
  · rw [Mask.mk.injEq] at h0
    obtain ⟨rfl, rfl⟩ := h0
    refine ⟨?_, ?_, ?_, ?_⟩
    · simp [Mask.MarshalBinary, Mask.AppendBinary, Mask.UnmarshalBinary, z0]
    · simp [Mask.MarshalBinary, Mask.AppendBinary, z0]
    · intro hc; simp [z0, z4] at hc
    · intro hc; simp [z0, z6] at hc
  · dsimp only at hz
    subst hz
    dsimp only at hm
    have hmar : Mask.MarshalBinary ⟨x, z4⟩
        = [x >>> 24 % 256, x >>> 16 % 256, x >>> 8 % 256, x % 256] := by
      simp only [Mask.MarshalBinary, Mask.AppendBinary, z0, z4, z6]
      norm_num [and255_eq_mod]
    have hdec : Mask.UnmarshalBinary old [x >>> 24 % 256, x >>> 16 % 256, x >>> 8 % 256,
        x % 256] = (⟨x, z4⟩, none) := by
      simp only [Mask.UnmarshalBinary, List.length_cons, List.length_nil]
      norm_num
      rw [MaskFrom4_mask]
      simp only [Prod.mk.injEq, Mask.mk.injEq, Nat.shiftRight_eq_div_pow]
      norm_num
      omega
    refine ⟨by rw [hmar]; exact hdec, by rw [hmar]; simp [z0, z4], fun _ => hmar, ?_⟩
    · intro hc; dsimp only at hc; exact absurd hc (by decide)
  · dsimp only at hz
    subst hz
    dsimp only at hm
    have hmar : Mask.MarshalBinary ⟨x, z6⟩ = [x] := by
      simp only [Mask.MarshalBinary, Mask.AppendBinary, z0, z4, z6]
      norm_num
      omega
    have hdec : Mask.UnmarshalBinary old [x] = (⟨x, z6⟩, none) := by
      simp only [Mask.UnmarshalBinary, List.length_cons, List.length_nil]
      norm_num
      unfold MaskFrom
      rw [if_neg (by omega), if_neg (by norm_num), if_pos rfl]
      simp
    refine ⟨by rw [hmar]; exact hdec, by rw [hmar]; simp [z0, z4, z6], ?_, fun _ => hmar⟩
    · intro hc; dsimp only at hc; exact absurd hc (by decide)

/-- Witness for C2 at a concrete constructible Mask. -/
theorem C2_witness :
    Mask.UnmarshalBinary ⟨0, z0⟩ ((MaskFrom4 255 255 0 0).MarshalBinary)
      = (MaskFrom4 255 255 0 0, none) :=
  (C2_binary_roundtrip (MaskFrom4 255 255 0 0) (Constructible.from4 255 255 0 0) ⟨0, z0⟩).1

/-- C8: equality is structural, so Masks built through different constructors
with the same bits compare equal, both under Go = and under Equal; in
particular MaskFrom 24 32 equals MaskFrom4 255 255 255 0. -/
theorem C8_structural_equality :
    (∀ x y : Mask, Mask.Equal x y = true ↔ x = y) ∧
    MaskFrom 24 32 = MaskFrom4 255 255 255 0 ∧
    Mask.Equal (MaskFrom 24 32) (MaskFrom4 255 255 255 0) = true := by
  refine ⟨?_, by decide, by decide⟩
  intro x y
  obtain ⟨a, b⟩ := x
  obtain ⟨c, d⟩ := y
  simp [Mask.Equal, Mask.mk.injEq]

/-- C9: UnmarshalBinary dispatches purely on input length: 0 gives the zero
Mask, 4 the IPv4 Mask of those bytes, 1 the 128-bit prefix constructor applied
to the byte, and every other length a decode error with the receiver kept. -/
theorem C9_binary_dispatch (old : Mask) (b : List Nat) :
    (b.length = 0 → Mask.UnmarshalBinary old b = (⟨0, z0⟩, none)) ∧
    (b.length = 4 → Mask.UnmarshalBinary old b
      = (MaskFrom4 (b.getD 0 0) (b.getD 1 0) (b.getD 2 0) (b.getD 3 0), none)) ∧
    (b.length = 1 → Mask.UnmarshalBinary old b
      = (MaskFrom ((b.getD 0 0 : Nat) : Int) 128, none) ∧
      (b.getD 0 0 ≤ 128 → (Mask.UnmarshalBinary old b).1 = ⟨b.getD 0 0, z6⟩)) ∧
    (b.length ≠ 0 → b.length ≠ 4 → b.length ≠ 1 →
      Mask.UnmarshalBinary old b = (old, some errUnexpectedSize)) := by
  refine ⟨?_, ?_, ?_, ?_⟩
  · intro h
    unfold Mask.UnmarshalBinary
    rw [if_pos h]
  · intro h
    unfold Mask.UnmarshalBinary
    rw [if_neg (by omega), if_pos h]
  · intro h
    unfold Mask.UnmarshalBinary
    rw [if_neg (by omega), if_neg (by omega), if_pos h]
    refine ⟨rfl, ?_⟩
    intro hle
    unfold MaskFrom
    rw [if_neg (by omega), if_neg (by norm_num), if_pos rfl]
    simp
  · intro h0 h4 h1
    unfold Mask.UnmarshalBinary
    rw [if_neg h0, if_neg h4, if_neg h1]

/-- Witness for C9 on a 2-byte input. -/
theorem C9_witness :
    Mask.UnmarshalBinary (MaskFrom 24 32) [7, 7] = (MaskFrom 24 32, some errUnexpectedSize) :=
  (C9_binary_dispatch (MaskFrom 24 32) [7, 7]).2.2.2 (by decide) (by decide) (by decide)

/-- C10: whenever UnmarshalBinary or UnmarshalText returns an error, the
receiver Mask is left unchanged; it is overwritten only on success paths. -/
theorem C10_decode_atomicity (old : Mask) (b : List Nat) (t : List Char) :
    ((Mask.UnmarshalBinary old b).2 ≠ none → (Mask.UnmarshalBinary old b).1 = old) ∧
    ((Mask.UnmarshalText old t).2 ≠ none → (Mask.UnmarshalText old t).1 = old) := by
  constructor
  · intro h
    unfold Mask.UnmarshalBinary at h ⊢
    split_ifs at h ⊢ <;> simp_all
  · intro h
    unfold Mask.UnmarshalText at h ⊢
    by_cases h0 : t.length = 0
    · rw [if_pos h0] at h
      simp at h
    · rw [if_neg h0] at h ⊢
      by_cases h13 : 1 ≤ t.length ∧ t.length ≤ 3
      · rw [if_pos h13] at h ⊢
        cases hp : parseUint t 64 with
        | none => rfl
        | some u =>
          rw [hp] at h
          dsimp only at h
          exact absurd rfl h
      · rw [if_neg h13] at h ⊢
        by_cases h715 : 7 ≤ t.length ∧ t.length ≤ 15
        · rw [if_pos h715] at h ⊢
          by_cases hs : (splitN '.' 4 t).length ≠ 4
          · rw [if_pos hs]
          · rw [if_neg hs] at h ⊢
            cases hp : parseFields (splitN '.' 4 t) with
            | none => rfl
            | some fields =>
              rw [hp] at h
              dsimp only at h
              exact absurd rfl h
        · rw [if_neg h715] at h ⊢

/-- Witness for C10 on erroring inputs. -/
theorem C10_witness :
    (Mask.UnmarshalBinary (MaskFrom 24 32) [1, 2]).1 = MaskFrom 24 32 ∧
    (Mask.UnmarshalText (MaskFrom 24 32) ['a']).1 = MaskFrom 24 32 := by
  obtain ⟨h1, h2⟩ := C10_decode_atomicity (MaskFrom 24 32) [1, 2] ['a']
  exact ⟨h1 (by decide), h2 (by decide)⟩

/-- C6: for every n up to 32, MaskFrom n 32 is an IPv4 Mask whose Bits equals
n and whose 4-byte AsSlice has exactly n leading one bits then zero bits. -/
theorem C6_MaskFrom_ipv4 : ∀ n : Nat, n ≤ 32 →
    (MaskFrom (n : Int) 32).z = z4 ∧
    Mask.Bits (MaskFrom (n : Int) 32) = (n : Int) ∧
    ((MaskFrom (n : Int) 32).AsSlice).length = 4 ∧
    IsOnesRun ((MaskFrom (n : Int) 32).AsSlice) n := by
  decide

/-- Witness for C6 at n = 24. -/
theorem C6_witness :
    (MaskFrom (24 : Int) 32).z = z4 ∧
    Mask.Bits (MaskFrom (24 : Int) 32) = (24 : Int) ∧
    ((MaskFrom (24 : Int) 32).AsSlice).length = 4 ∧
    IsOnesRun ((MaskFrom (24 : Int) 32).AsSlice) 24 := by
  have h := C6_MaskFrom_ipv4 24 (by decide)
  exact_mod_cast h

/-- C7: for every n up to 128, MaskFrom16 applied to the 16-byte AsSlice of
MaskFrom n 128 yields a Mask equal to MaskFrom n 128. -/
theorem C7_roundtrip_16 : ∀ n : Nat, n ≤ 128 →
    MaskFrom16 ((MaskFrom (n : Int) 128).AsSlice) = MaskFrom (n : Int) 128 := by
  decide

/-- Witness for C7 at n = 64. -/
theorem C7_witness :
    MaskFrom16 ((MaskFrom (64 : Int) 128).AsSlice) = MaskFrom (64 : Int) 128 := by
  have h := C7_roundtrip_16 64 (by decide)
  exact_mod_cast h

theorem digitVal_le_9 (c : Char) (h : isDigit c = true) : digitVal c ≤ 9 := by
  simp only [isDigit, Bool.and_eq_true, decide_eq_true_eq] at h
  unfold digitVal
  omega

theorem digitsVal_foldl_lt (s : List Char) (hd : ∀ c ∈ s, isDigit c = true) :
    ∀ a : Nat, s.foldl (fun x c => x * 10 + digitVal c) a < (a + 1) * 10 ^ s.length := by
  induction s with
  | nil => intro a; simp
  | cons c t ih =>
    intro a
    have hc : digitVal c ≤ 9 := digitVal_le_9 c (hd c (List.mem_cons_self c t))
    have hdt : ∀ x ∈ t, isDigit x = true := fun x hx => hd x (List.mem_cons_of_mem c hx)
    have ht := ih hdt (a * 10 + digitVal c)
    simp only [List.foldl_cons, List.length_cons]
    calc t.foldl (fun x c => x * 10 + digitVal c) (a * 10 + digitVal c)
        < (a * 10 + digitVal c + 1) * 10 ^ t.length := ht
      _ ≤ ((a + 1) * 10) * 10 ^ t.length := Nat.mul_le_mul_right _ (by omega)
      _ = (a + 1) * 10 ^ (t.length + 1) := by ring

theorem digitsVal_lt (s : List Char) (hd : s.all isDigit = true) :
    digitsVal s < 10 ^ s.length := by
  have hd2 : ∀ c ∈ s, isDigit c = true := fun c hc => List.all_eq_true.mp hd c hc
  have h := digitsVal_foldl_lt s hd2 0
  simpa [digitsVal] using h

/-- C4 as amended: UnmarshalText on a 1-to-3-character decimal string whose
value exceeds 128, and UnmarshalBinary on a 1-byte input whose value exceeds
128, do NOT return a decode error: they return nil error and set the receiver
to the invalid zero Mask, because MaskFrom yields the zero Mask when ones is
out of range. -/
theorem C4_overflow_silently_invalid (old : Mask) (s : List Char) (h1 : 1 ≤ s.length)
    (h3 : s.length ≤ 3) (hd : s.all isDigit = true) (hv : 128 < digitsVal s) :
    Mask.UnmarshalText old s = (⟨0, z0⟩, none) ∧
    (∀ b : Nat, 128 < b → b < 256 → Mask.UnmarshalBinary old [b] = (⟨0, z0⟩, none)) := by
  constructor
  · have hval : digitsVal s < 2 ^ 64 := by
      have hlt := digitsVal_lt s hd
      have hpow : (10 : Nat) ^ s.length ≤ 10 ^ 3 := Nat.pow_le_pow_right (by norm_num) h3
      norm_num at hpow ⊢
      omega
    have hne : ¬ (s.isEmpty = true) := by
      simp only [List.isEmpty_iff]
      intro hempty
      rw [hempty] at h1
      simp at h1
    have hp : parseUint s 64 = some (digitsVal s) := by
      unfold parseUint
      rw [if_neg hne, if_pos hd, if_pos hval]
    unfold Mask.UnmarshalText
    rw [if_neg (by omega), if_pos ⟨h1, h3⟩, hp]
    dsimp only
    unfold MaskFrom
    rw [if_pos (Or.inr (by exact_mod_cast hv))]
  · intro b hb1 hb2
    unfold Mask.UnmarshalBinary
    rw [if_neg (by simp), if_neg (by simp), if_pos (by simp)]
    simp only [List.getD_cons_zero]
    unfold MaskFrom
    rw [if_pos (Or.inr (by exact_mod_cast hb1))]

/-- C4 counterexample: decoding the text 129 (three characters, value above
128) yields the invalid zero Mask with no error, refuting the claim that a
decode error is returned. -/
theorem C4_counterexample :
    Mask.UnmarshalText (MaskFrom 24 32) ['1', '2', '9'] = (⟨0, z0⟩, none) ∧
    digitsVal ['1', '2', '9'] = 129 := by
  decide

/-- Witness for the amended C4 at the text 200 and the byte 200. -/
theorem C4_witness :
    Mask.UnmarshalText (MaskFrom 24 32) ['2', '0', '0'] = (⟨0, z0⟩, none) ∧
    Mask.UnmarshalBinary (MaskFrom 24 32) [200] = (⟨0, z0⟩, none) := by
  obtain ⟨h1, h2⟩ := C4_overflow_silently_invalid (MaskFrom 24 32) ['2', '0', '0']
    (by decide) (by decide) (by decide) (by decide)
  exact ⟨h1, h2 200 (by decide) (by decide)⟩

theorem toDec_facts : ∀ v : Nat, v < 256 →
    1 ≤ (toDec v).length ∧ (toDec v).length ≤ 3 ∧ (toDec v).all isDigit = true ∧
    parseUint (toDec v) 8 = some v ∧ parseUint (toDec v) 64 = some v ∧
    ('.' ∈ toDec v → False) := by decide

theorem breakAtSep_no_sep (sep : Char) (A : List Char) (hA : sep ∉ A) :
    breakAtSep sep A = (A, none) := by
  induction A with
  | nil => rfl
  | cons c t ih =>
    simp only [List.mem_cons, not_or] at hA
    unfold breakAtSep
    rw [if_neg (fun hcs => hA.1 hcs.symm), ih hA.2]

theorem breakAtSep_append (sep : Char) (A R : List Char) (hA : sep ∉ A) :
    breakAtSep sep (A ++ sep :: R) = (A, some R) := by
  induction A with
  | nil => simp [breakAtSep]
  | cons c t ih =>
    simp only [List.mem_cons, not_or] at hA
    rw [List.cons_append]
    unfold breakAtSep
    rw [if_neg (fun hcs => hA.1 hcs.symm), ih hA.2]

theorem splitN_step (s : List Char) (n : Nat) :
    splitN '.' (n + 2) s = (match breakAtSep '.' s with
      | (pre, none) => [pre]
      | (pre, some rest) => pre :: splitN '.' (n + 1) rest) := rfl

theorem splitN_four (A B C D : List Char) (hA : '.' ∉ A) (hB : '.' ∉ B) (hC : '.' ∉ C) :
    splitN '.' 4 (A ++ '.' :: (B ++ '.' :: (C ++ '.' :: D))) = [A, B, C, D] := by
  rw [show (4 : Nat) = 2 + 2 from rfl, splitN_step, breakAtSep_append _ _ _ hA]
  dsimp only
  rw [show (2 : Nat) + 1 = 1 + 2 from rfl, splitN_step, breakAtSep_append _ _ _ hB]
  dsimp only
  rw [show (1 : Nat) + 1 = 0 + 2 from rfl, splitN_step, breakAtSep_append _ _ _ hC]
  rfl

/-- C3: for every constructible Mask other than the zero Mask, unmarshalling
the output of MarshalText yields the same Mask with no error; for the zero Mask
MarshalText is the empty string and UnmarshalText of the empty string gives the
zero Mask with no error. -/
theorem C3_text_roundtrip (m : Mask) (h : Constructible m) (old : Mask) :
    (m ≠ ⟨0, z0⟩ → Mask.UnmarshalText old m.MarshalText = (m, none)) ∧
    (m = ⟨0, z0⟩ →
      m.MarshalText = [] ∧ Mask.UnmarshalText old m.MarshalText = (⟨0, z0⟩, none)) := by
  obtain ⟨x, z⟩ := m
  rcases constructible_inv ⟨x, z⟩ h with h0 | ⟨hz, hm⟩ | ⟨hz, hm⟩
  · rw [Mask.mk.injEq] at h0
    obtain ⟨rfl, rfl⟩ := h0
    refine ⟨fun hne => absurd rfl hne, fun _ => ⟨?_, ?_⟩⟩
    · simp [Mask.MarshalText, Mask.AppendText, z0]
    · simp [Mask.MarshalText, Mask.AppendText, Mask.UnmarshalText, z0]
  · dsimp only at hz
    subst hz
    dsimp only at hm
    have ha : x >>> 24 % 256 < 256 := Nat.mod_lt _ (by norm_num)
    have hb : x >>> 16 % 256 < 256 := Nat.mod_lt _ (by norm_num)
    have hc : x >>> 8 % 256 < 256 := Nat.mod_lt _ (by norm_num)
    have hd : x % 256 < 256 := Nat.mod_lt _ (by norm_num)
    obtain ⟨ha1, ha3, _, hpa, _, hadot⟩ := toDec_facts _ ha
    obtain ⟨hb1, hb3, _, hpb, _, hbdot⟩ := toDec_facts _ hb
    obtain ⟨hc1, hc3, _, hpc, _, hcdot⟩ := toDec_facts _ hc
    obtain ⟨hd1, hd3, _, hpd, _, hddot⟩ := toDec_facts _ hd
    have hmar : Mask.MarshalText ⟨x, z4⟩
        = toDec (x >>> 24 % 256) ++ '.' :: (toDec (x >>> 16 % 256)
          ++ '.' :: (toDec (x >>> 8 % 256) ++ '.' :: toDec (x % 256))) := by
      simp [Mask.MarshalText, Mask.AppendText, appendTextIPv4, z0, z4, List.append_assoc]
    have hlen : (Mask.MarshalText ⟨x, z4⟩).length
        = (toDec (x >>> 24 % 256)).length + (toDec (x >>> 16 % 256)).length
          + (toDec (x >>> 8 % 256)).length + (toDec (x % 256)).length + 3 := by
      rw [hmar]
      simp [List.length_append, List.length_cons]
      omega
    have hsplit : splitN '.' 4 (Mask.MarshalText ⟨x, z4⟩)
        = [toDec (x >>> 24 % 256), toDec (x >>> 16 % 256), toDec (x >>> 8 % 256),
            toDec (x % 256)] := by
      rw [hmar]
      exact splitN_four _ _ _ _ (fun hx => hadot hx) (fun hx => hbdot hx) (fun hx => hcdot hx)
    have hpf : parseFields [toDec (x >>> 24 % 256), toDec (x >>> 16 % 256),
        toDec (x >>> 8 % 256), toDec (x % 256)]
        = some [x >>> 24 % 256, x >>> 16 % 256, x >>> 8 % 256, x % 256] := by
      simp [parseFields, hpa, hpb, hpc, hpd]
    refine ⟨fun _ => ?_, fun heq => ?_⟩
    · unfold Mask.UnmarshalText
      rw [if_neg (by omega), if_neg (by omega), if_pos (by omega), hsplit]
      rw [if_neg (by norm_num), hpf]
      dsimp only
      simp only [List.getD_cons_zero, List.getD_cons_succ, Prod.mk.injEq, Mask.mk.injEq]
      refine ⟨⟨?_, by trivial⟩, by trivial⟩
      rw [pack4_eq _ _ _ _ hb hc hd, Nat.shiftRight_eq_div_pow, Nat.shiftRight_eq_div_pow,
        Nat.shiftRight_eq_div_pow]
      omega
    · exfalso
      rw [Mask.mk.injEq] at heq
      have := heq.2
      simp [z4, z0] at this
  · dsimp only at hz
    subst hz
    dsimp only at hm
    obtain ⟨hx1, hx3, _, _, hpx, _⟩ := toDec_facts x (by omega)
    have hmar : Mask.MarshalText ⟨x, z6⟩ = toDec x := by
      simp [Mask.MarshalText, Mask.AppendText, z0, z4, z6]
    refine ⟨fun _ => ?_, fun heq => ?_⟩
    · unfold Mask.UnmarshalText
      rw [hmar]
      rw [if_neg (by omega), if_pos (by omega), hpx]
      dsimp only
      unfold MaskFrom
      rw [if_neg (by omega), if_neg (by norm_num), if_pos rfl]
      simp
    · exfalso
      rw [Mask.mk.injEq] at heq
      have := heq.2
      simp [z6, z0] at this

/-- Witness for C3 at a concrete IPv4 Mask. -/
theorem C3_witness :
    Mask.UnmarshalText ⟨0, z0⟩ ((MaskFrom4 255 255 255 0).MarshalText)
      = (MaskFrom4 255 255 255 0, none) :=
  (C3_text_roundtrip (MaskFrom4 255 255 255 0) (Constructible.from4 255 255 255 0)
    ⟨0, z0⟩).1 (by decide)
